import Mathlib

/-!
# Customer-provided encryption key headers (`azblob/customer_provided_encryption_keys.go`)

A shallow embedding of `newBlobEncryptionHeader` and `setEncryptionHeaders`, together with
the parts of the Go standard library they call (`encoding/base64`, `crypto/sha256`,
`fmt.Errorf`, `net/http.Header.Set`), and the properties of the specification proved on it.

Conventions of the embedding:
* a Go `byte` is a `Fin 256`; a `[]byte` is a `List Byte`, and a slice that may be `nil`
  is an `Option (List Byte)` (`none` is `nil`, `some []` is an empty non-nil slice);
* a Go `string` is a Lean `String`; every string this file builds from bytes is ASCII;
* `uint`/`uint32` arithmetic is arithmetic on `Nat`, reduced `% 2 ^ 32` where the Go
  operation can overflow;
* a Go `(value, error)` result is a pair of `Option`s, `none` being `nil`.
-/

namespace azblob

/-- A Go `byte` (`uint8`). -/
abbrev Byte := Fin 256

/-- The Go allocation `make([]byte, n)`: `n` zero bytes. -/
def make (n : Nat) : List Byte := List.replicate n 0

/-- The Go conversion `string(b)` of a byte slice. Each byte becomes the character of the
same code point, which is what Go does on ASCII bytes. -/
def string (b : List Byte) : String := String.mk (b.map fun x => Char.ofNat x.val)

/-- The Go conversion `[]byte(s)` of a string: its UTF-8 bytes. -/
def bytes (s : String) : List Byte := s.data.flatMap fun c => (String.utf8EncodeChar c).map fun u => u.val

/-! ## `encoding/base64` -/

namespace base64

/-- The standard alphabet of RFC 4648 (`encodeStd`). -/
def encodeStd : String := "ABCDEFGHIJKLMNOPQRSTUVWXYZabcdefghijklmnopqrstuvwxyz0123456789+/"

/-- The padding character `StdPadding`, the byte of `=`. -/
def StdPadding : Byte := 61

/-- An `Encoding`: the 64-entry `encode` table, the 256-entry `decodeMap` (entry `0xFF`
for a byte outside the alphabet) and the padding character (`none` is `NoPadding`). -/
structure Encoding where
  encode : List Byte
  decodeMap : List Byte
  padChar : Option Byte

/-- The constructor `NewEncoding(encoder)`: padding is `StdPadding`, `decodeMap` starts as
256 entries `0xFF` and then gets `decodeMap[encoder[i]] = i` for each `i`. -/
def NewEncoding (encoder : String) : Encoding :=
  let e := bytes encoder
  { encode := e
    decodeMap := (List.range e.length).foldl
      (fun m i => m.set (e.getD i 0).val (Fin.ofNat i)) (List.replicate 256 255)
    padChar := some StdPadding }

/-- The encoding `StdEncoding = NewEncoding(encodeStd)`. -/
def StdEncoding : Encoding := NewEncoding encodeStd

/-- The method `EncodedLen(n)`: length in bytes of the encoding of `n` source bytes. -/
def Encoding.EncodedLen (enc : Encoding) (n : Nat) : Nat :=
  match enc.padChar with
  | none => n / 3 * 4 + (n % 3 * 8 + 5) / 6
  | some _ => (n + 2) / 3 * 4

/-- The table lookup `enc.encode[v & 0x3F]`. -/
def Encoding.sym (enc : Encoding) (v : Nat) : Byte := enc.encode.getD (v &&& 0x3F) 0

/-- The body of `Encode(dst, src)`: `src` is what is left of the source from index `si`
on, `di` the write index into `dst`. Whole groups of three bytes yield four symbols; a
last group of one or two bytes yields two or three symbols, then padding if the encoding
has any. A write past the end of `dst` (a panic in Go) leaves `dst` as it is. -/
def Encoding.encodeLoop (enc : Encoding) : List Byte → Nat → List Byte → List Byte
  | b0 :: b1 :: b2 :: rest, di, dst =>
    let val := b0.val <<< 16 ||| b1.val <<< 8 ||| b2.val
    let dst := dst.set (di + 0) (enc.sym (val >>> 18))
    let dst := dst.set (di + 1) (enc.sym (val >>> 12))
    let dst := dst.set (di + 2) (enc.sym (val >>> 6))
    let dst := dst.set (di + 3) (enc.sym val)
    enc.encodeLoop rest (di + 4) dst
  | [b0, b1], di, dst =>
    let val := b0.val <<< 16 ||| b1.val <<< 8
    let dst := dst.set (di + 0) (enc.sym (val >>> 18))
    let dst := dst.set (di + 1) (enc.sym (val >>> 12))
    let dst := dst.set (di + 2) (enc.sym (val >>> 6))
    match enc.padChar with
    | some p => dst.set (di + 3) p
    | none => dst
  | [b0], di, dst =>
    let val := b0.val <<< 16
    let dst := dst.set (di + 0) (enc.sym (val >>> 18))
    let dst := dst.set (di + 1) (enc.sym (val >>> 12))
    match enc.padChar with
    | some p => (dst.set (di + 2) p).set (di + 3) p
    | none => dst
  | [], _, dst => dst

/-- The method `Encode(dst, src)`: writes the encoding of `src` into `dst` from index 0
and returns the buffer. -/
def Encoding.Encode (enc : Encoding) (dst src : List Byte) : List Byte :=
  enc.encodeLoop src 0 dst

/-- Skips the line breaks `\r` and `\n`, which the decoder ignores. -/
def skipNewlines : List Byte → List Byte
  | c :: rest => if c = 10 ∨ c = 13 then skipNewlines rest else c :: rest
  | [] => []

/-- The three bytes `byte(val>>16), byte(val>>8), byte(val)` of the 24-bit value of a
quantum of four 6-bit digits (missing digits are 0). -/
def quantumBytes (d0 d1 d2 d3 : Byte) : List Byte :=
  let val := d0.val <<< 18 ||| d1.val <<< 12 ||| d2.val <<< 6 ||| d3.val
  [Fin.ofNat (val >>> 16), Fin.ofNat (val >>> 8), Fin.ofNat val]

/-- The decoder of `Decode`/`DecodeString` (the loop over `decodeQuantum`, without its
word-at-a-time fast paths): `dbuf` holds the digits of the quantum being read. Line breaks
are skipped; a byte outside the alphabet other than padding, padding after fewer than two
digits, incomplete padding, bytes after the padding and, for a padded encoding, an input
ending inside a quantum are errors (`none`). -/
def Encoding.decodeLoop (enc : Encoding) : List Byte → List Byte → Option (List Byte)
  | [], dbuf =>
    match dbuf with
    | [] => some []
    | [_] => none
    | [d0, d1] => if enc.padChar = none then some ((quantumBytes d0 d1 0 0).take 1) else none
    | d0 :: d1 :: d2 :: _ =>
      if enc.padChar = none then some ((quantumBytes d0 d1 d2 0).take 2) else none
  | c :: rest, dbuf =>
    let out := enc.decodeMap.getD c.val 255
    if out ≠ 255 then
      match dbuf with
      | [d0, d1, d2] => (enc.decodeLoop rest []).map fun t => quantumBytes d0 d1 d2 out ++ t
      | _ => enc.decodeLoop rest (dbuf ++ [out])
    else if c = 10 ∨ c = 13 then enc.decodeLoop rest dbuf
    else if some c ≠ enc.padChar then none
    else
      match dbuf with
      | [d0, d1] =>
        match skipNewlines rest with
        | [] => none
        | c2 :: rest2 =>
          if some c2 ≠ enc.padChar then none
          else if skipNewlines rest2 = [] then some ((quantumBytes d0 d1 0 0).take 1)
          else none
      | [d0, d1, d2] =>
        if skipNewlines rest = [] then some ((quantumBytes d0 d1 d2 0).take 2) else none
      | _ => none

/-- The method `DecodeString(s)`; `none` stands for a `CorruptInputError`. -/
def Encoding.DecodeString (enc : Encoding) (s : String) : Option (List Byte) :=
  enc.decodeLoop (bytes s) []

end base64

/-! ## `crypto/sha256` -/

namespace sha256

/-- The initial hash value `init0 .. init7`. -/
def init : List Nat :=
  [0x6A09E667, 0xBB67AE85, 0x3C6EF372, 0xA54FF53A, 0x510E527F, 0x9B05688C, 0x1F83D9AB,
   0x5BE0CD19]

/-- The round constants `_K`. -/
def K : List Nat :=
  [0x428a2f98, 0x71374491, 0xb5c0fbcf, 0xe9b5dba5, 0x3956c25b, 0x59f111f1, 0x923f82a4,
   0xab1c5ed5, 0xd807aa98, 0x12835b01, 0x243185be, 0x550c7dc3, 0x72be5d74, 0x80deb1fe,
   0x9bdc06a7, 0xc19bf174, 0xe49b69c1, 0xefbe4786, 0x0fc19dc6, 0x240ca1cc, 0x2de92c6f,
   0x4a7484aa, 0x5cb0a9dc, 0x76f988da, 0x983e5152, 0xa831c66d, 0xb00327c8, 0xbf597fc7,
   0xc6e00bf3, 0xd5a79147, 0x06ca6351, 0x14292967, 0x27b70a85, 0x2e1b2138, 0x4d2c6dfc,
   0x53380d13, 0x650a7354, 0x766a0abb, 0x81c2c92e, 0x92722c85, 0xa2bfe8a1, 0xa81a664b,
   0xc24b8b70, 0xc76c51a3, 0xd192e819, 0xd6990624, 0xf40e3585, 0x106aa070, 0x19a4c116,
   0x1e376c08, 0x2748774c, 0x34b0bcb5, 0x391c0cb3, 0x4ed8aa4a, 0x5b9cca4f, 0x682e6ff3,
   0x748f82ee, 0x78a5636f, 0x84c87814, 0x8cc70208, 0x90befffa, 0xa4506ceb, 0xbef9a3f7,
   0xc67178f2]

/-- Truncation of a value to `uint32`. -/
def u32 (x : Nat) : Nat := x % 2 ^ 32

/-- The rotation `bits.RotateLeft32(x, -k)`, a rotation to the right by `k` bits. -/
def rotr (x k : Nat) : Nat := u32 (x >>> k ||| x <<< (32 - k))

/-- The complement `^x` of a `uint32`. -/
def not32 (x : Nat) : Nat := x ^^^ 0xFFFFFFFF

/-- The first loop of a block: `w[i]` for `i < 16` is the big-endian word of bytes
`4i .. 4i+3` of the chunk. -/
def words : List Byte → List Nat
  | b0 :: b1 :: b2 :: b3 :: rest =>
    (b0.val <<< 24 ||| b1.val <<< 16 ||| b2.val <<< 8 ||| b3.val) :: words rest
  | _ => []

/-- The second loop of a block, run `n` more times: appends
`w[i] = t1 + w[i-7] + t2 + w[i-16]` to the schedule `w` of length `i`. -/
def extend : Nat → List Nat → List Nat
  | 0, w => w
  | n + 1, w =>
    let i := w.length
    let v1 := w.getD (i - 2) 0
    let t1 := rotr v1 17 ^^^ rotr v1 19 ^^^ (v1 >>> 10)
    let v2 := w.getD (i - 15) 0
    let t2 := rotr v2 7 ^^^ rotr v2 18 ^^^ (v2 >>> 3)
    extend n (w ++ [u32 (t1 + w.getD (i - 7) 0 + t2 + w.getD (i - 16) 0)])

/-- The working variables `a .. h` of the compression function. -/
structure Vars where
  a : Nat
  b : Nat
  c : Nat
  d : Nat
  e : Nat
  f : Nat
  g : Nat
  h : Nat

/-- One iteration of the third loop of a block, with round constant `k` and schedule
word `w`. -/
def round (s : Vars) (k w : Nat) : Vars :=
  let t1 := u32 (s.h + (rotr s.e 6 ^^^ rotr s.e 11 ^^^ rotr s.e 25)
    + ((s.e &&& s.f) ^^^ (not32 s.e &&& s.g)) + k + w)
  let t2 := u32 ((rotr s.a 2 ^^^ rotr s.a 13 ^^^ rotr s.a 22)
    + ((s.a &&& s.b) ^^^ (s.a &&& s.c) ^^^ (s.b &&& s.c)))
  { a := u32 (t1 + t2), b := s.a, c := s.b, d := s.c, e := u32 (s.d + t1), f := s.e,
    g := s.f, h := s.g }

/-- The third loop of a block over the pairs `(_K[i], w[i])`. -/
def rounds (s : Vars) : List (Nat × Nat) → Vars
  | [] => s
  | (k, w) :: rest => rounds (round s k w) rest

/-- The function `blockGeneric` on one 64-byte chunk `p`: the chaining value `h0 .. h7`
after the chunk. -/
def block (h : Vars) (p : List Byte) : Vars :=
  let w := extend 48 (words p)
  let s := rounds h (K.zip w)
  { a := u32 (h.a + s.a), b := u32 (h.b + s.b), c := u32 (h.c + s.c), d := u32 (h.d + s.d),
    e := u32 (h.e + s.e), f := u32 (h.f + s.f), g := u32 (h.g + s.g), h := u32 (h.h + s.h) }

/-- The loop of `blockGeneric` over `n` consecutive 64-byte chunks of `p`. -/
def blocks : Nat → Vars → List Byte → Vars
  | 0, h, _ => h
  | n + 1, h, p => blocks n (block h (p.take 64)) (p.drop 64)

/-- The big-endian bytes written by `binary.BigEndian.PutUint32`. -/
def putUint32 (x : Nat) : List Byte :=
  [Fin.ofNat (x >>> 24), Fin.ofNat (x >>> 16), Fin.ofNat (x >>> 8), Fin.ofNat x]

/-- The big-endian bytes written by `binary.BigEndian.PutUint64`. -/
def putUint64 (x : Nat) : List Byte :=
  putUint32 (x >>> 32) ++ putUint32 x

/-- The padding appended by `checkSum` to a message of `len` bytes: the byte `0x80`,
zero bytes up to 56 modulo 64, and the length in bits as a 64-bit big-endian integer. -/
def padding (len : Nat) : List Byte :=
  let t := if len % 64 < 56 then 56 - len % 64 else 64 + 56 - len % 64
  ((0x80 : Byte) :: List.replicate (t - 1) 0) ++ putUint64 ((len <<< 3) % 2 ^ 64)

/-- The function `Sum256(data)`: the SHA-256 checksum of `data`, as 32 bytes. The state
starts at `init`, absorbs `data` followed by its padding chunk by chunk, and is written
out big-endian. -/
def Sum256 (data : List Byte) : List Byte :=
  let p := data ++ padding data.length
  let d := blocks (p.length / 64)
    { a := init.getD 0 0, b := init.getD 1 0, c := init.getD 2 0, d := init.getD 3 0,
      e := init.getD 4 0, f := init.getD 5 0, g := init.getD 6 0, h := init.getD 7 0 } p
  putUint32 d.a ++ putUint32 d.b ++ putUint32 d.c ++ putUint32 d.d ++ putUint32 d.e
    ++ putUint32 d.f ++ putUint32 d.g ++ putUint32 d.h

end sha256

/-! ## `net/textproto` and `net/http`: header collections -/

namespace http

/-- The predicate `validHeaderFieldByte`: the token characters of RFC 7230. -/
def validHeaderFieldByte (c : Char) : Bool :=
  c.isAlphanum || "!#$%&'*+-.^_`|~".data.contains c

/-- The rewriting loop of `canonicalMIMEHeaderKey`: a letter is made upper case at the
start and after each `-`, lower case elsewhere; `upper` says which applies next. -/
def canonicalize : Bool → List Char → List Char
  | _, [] => []
  | upper, c :: rest =>
    let c := if upper && c.isLower then c.toUpper
      else if !upper && c.isUpper then c.toLower else c
    c :: canonicalize (c == '-') rest

/-- The function `textproto.CanonicalMIMEHeaderKey`: the canonical form of a header name,
or the name unchanged if it holds a character that is not a token character. -/
def CanonicalMIMEHeaderKey (s : String) : String :=
  if s.data.all validHeaderFieldByte then String.mk (canonicalize true s.data) else s

/-- The type `http.Header`, a `map[string][]string`: a name that is no key of the map is
sent to `none`. -/
abbrev Header := String → Option (List String)

/-- The method `Header.Set(key, value)`: the entry of the canonical form of `key` becomes
the single value `value`; no other entry changes. -/
def Header.Set (h : Header) (key value : String) : Header :=
  fun k => if k = CanonicalMIMEHeaderKey key then some [value] else h k

/-- The method `Header.Values(key)`: all values of the entry of the canonical form of
`key`, none if there is no such entry. -/
def Header.Values (h : Header) (key : String) : List String :=
  (h (CanonicalMIMEHeaderKey key)).getD []

/-- The method `Header.Get(key)`: the first value of the entry of the canonical form of
`key`, the empty string if there is none. -/
def Header.Get (h : Header) (key : String) : String :=
  (Header.Values h key).headD ""

end http

/-- The type `pipeline.Request`, which wraps an `http.Request` with an allocated header
map (as `pipeline.NewRequest` builds it; `Header.Set` on a nil map panics in Go, and a
request without a map is outside this model). `rest` stands for the fields of the request
other than `Header`, of whatever type `ρ`. -/
structure Request (ρ : Type) where
  Header : http.Header
  rest : ρ

/-! ## `azblob/customer_provided_encryption_keys.go` -/

/-- The constant `encryptionAlgorithm`. -/
def encryptionAlgorithm : String := "AES256"

/-- The type `CustomerEncryptionKey` is the AES-256 key of the customer provided encryption key
feature, a `[]byte`; `none` (`nil`) means that customer encryption keys are not used. -/
abbrev CustomerEncryptionKey := Option (List Byte)

/-- The type `InvalidAES256KeyLength` is the error returned when the provided key has an invalid
length; `Error` is the message of the Go `error` value. -/
structure InvalidAES256KeyLength where
  Error : String
  deriving DecidableEq, Repr

/-- The function `newInvalidAES256KeyLength(length)` is
`fmt.Errorf("Invalid key length, must be 32 bytes: %d", length)`; the verb `%d` renders the
`int` in base 10. -/
def newInvalidAES256KeyLength (length : Int) : InvalidAES256KeyLength :=
  ⟨"Invalid key length, must be 32 bytes: " ++ toString length⟩

/-- The type `blobEncryptionHeaders` includes the http headers needed for using customer provided
encryption. -/
structure blobEncryptionHeaders where
  key : String
  keySha2 : String
  deriving DecidableEq, Repr

/-- The function `newBlobEncryptionHeader` creates a new `blobEncryptionHeaders`. A nil key is a valid
input and indicates that this type of encryption is not used; a non-nil key must have
length 32. The result is the Go pair `(*blobEncryptionHeaders, error)`. -/
def newBlobEncryptionHeader (key : Option (List Byte)) :
    Option blobEncryptionHeaders × Option InvalidAES256KeyLength :=
  match key with
  | none => (none, none)
  | some key =>
    if key.length ≠ 32 then
      (none, some (newInvalidAES256KeyLength key.length))
    else
      let eKey := make (base64.StdEncoding.EncodedLen key.length)
      let eKey := base64.StdEncoding.Encode eKey key
      let sKeyHash := sha256.Sum256 key
      let sKey := make (base64.StdEncoding.EncodedLen sKeyHash.length)
      let sKey := base64.StdEncoding.Encode sKey sKeyHash
      (some { key := string eKey, keySha2 := string sKey }, none)

/-- The function `setEncryptionHeaders` augments a http request with the encryption headers, if
necessary. -/
def setEncryptionHeaders {ρ : Type} (req : Request ρ) (enc : Option blobEncryptionHeaders) :
    Request ρ :=
  match enc with
  | some enc =>
    let req := { req with Header := req.Header.Set "x-ms-encryption-key" enc.key }
    let req := { req with Header := req.Header.Set "x-ms-encryption-key-sha256" enc.keySha2 }
    let req :=
      { req with Header := req.Header.Set "x-ms-encryption-algorithm" encryptionAlgorithm }
    req
  | none => req

namespace base64

/-- The bytes `Encode` writes for the source `src`, as a list built front to back: the
closed form of `encodeLoop` that the proofs reason on. -/
def Encoding.encoded (enc : Encoding) : List Byte → List Byte
  | b0 :: b1 :: b2 :: rest =>
    let val := b0.val <<< 16 ||| b1.val <<< 8 ||| b2.val
    enc.sym (val >>> 18) :: enc.sym (val >>> 12) :: enc.sym (val >>> 6) :: enc.sym val
      :: enc.encoded rest
  | [b0, b1] =>
    let val := b0.val <<< 16 ||| b1.val <<< 8
    [enc.sym (val >>> 18), enc.sym (val >>> 12), enc.sym (val >>> 6)] ++ enc.padChar.toList
  | [b0] =>
    let val := b0.val <<< 16
    [enc.sym (val >>> 18), enc.sym (val >>> 12)] ++ enc.padChar.toList ++ enc.padChar.toList
  | [] => []

end base64

/-! ## Base64 as RFC 4648 words it -/

namespace rfc4648

/-- The base 64 alphabet (RFC 4648, table 1): values 0 to 25 are `A` to `Z`, 26 to 51 are
`a` to `z`, 52 to 61 are `0` to `9`, 62 is `+` and 63 is `/`. -/
def alphabet (v : Nat) : Char :=
  if v < 26 then Char.ofNat (65 + v)
  else if v < 52 then Char.ofNat (97 + (v - 26))
  else if v < 62 then Char.ofNat (48 + (v - 52))
  else if v = 62 then '+'
  else '/'

/-- The base 64 encoding of RFC 4648, section 4: each group of 24 input bits is read as
four 6-bit values, each sent to its character of the alphabet; a final group of 8 bits is
padded with zero bits to 12 and gives two characters and `==`, a final group of 16 bits is
padded to 18 and gives three characters and `=`. -/
def encode : List Byte → List Char
  | b0 :: b1 :: b2 :: rest =>
    let n := b0.val * 2 ^ 16 + b1.val * 2 ^ 8 + b2.val
    alphabet (n / 2 ^ 18) :: alphabet (n / 2 ^ 12 % 64) :: alphabet (n / 2 ^ 6 % 64)
      :: alphabet (n % 64) :: encode rest
  | [b0, b1] =>
    let n := (b0.val * 2 ^ 8 + b1.val) * 2 ^ 2
    [alphabet (n / 2 ^ 12), alphabet (n / 2 ^ 6 % 64), alphabet (n % 64), '=']
  | [b0] =>
    let n := b0.val * 2 ^ 4
    [alphabet (n / 2 ^ 6), alphabet (n % 64), '=', '=']
  | [] => []

/-- Says whether a character is one of the 64 characters of the standard alphabet: `A` to
`Z`, `a` to `z`, `0` to `9`, `+` and `/`. -/
def isAlphabet (c : Char) : Bool :=
  c.isUpper || c.isLower || c.isDigit || c == '+' || c == '/'

/-- A well-formed standard base64 string of 44 characters: 43 characters of the standard
alphabet followed by one `=` pad. -/
abbrev WellFormed44 (s : String) : Prop :=
  s.length = 44 ∧ (∀ c ∈ s.data.take 43, isAlphabet c = true) ∧ s.data.drop 43 = ['=']

end rfc4648

/-! ## Lemmas on the base64 encoder and decoder -/

open base64

/-- A bitwise or of a multiple of `2 ^ i` with a value below `2 ^ i` is their sum. -/
theorem or_eq_add_of_dvd (i a b : Nat) (ha : 2 ^ i ∣ a) (hb : b < 2 ^ i) : a ||| b = a + b := by
  obtain ⟨c, rfl⟩ := ha
  exact (Nat.mul_add_lt_is_or hb c).symm

/-- The mask `& 0x3F` keeps the value modulo 64. -/
theorem and_63 (x : Nat) : x &&& 0x3F = x % 64 := Nat.and_pow_two_sub_one_eq_mod x 6

/-- The 24-bit value of three bytes, in arithmetic form. -/
theorem val3 (b0 b1 b2 : Nat) (h1 : b1 < 256) (h2 : b2 < 256) :
    b0 <<< 16 ||| b1 <<< 8 ||| b2 = b0 * 65536 + b1 * 256 + b2 := by
  simp only [Nat.shiftLeft_eq]
  rw [or_eq_add_of_dvd 16 (b0 * 2 ^ 16) (b1 * 2 ^ 8) (by omega) (by omega),
    or_eq_add_of_dvd 8 (b0 * 2 ^ 16 + b1 * 2 ^ 8) b2 (by omega) (by omega)]

/-- The 24-bit value of four 6-bit digits, in arithmetic form. -/
theorem val4 (d0 d1 d2 d3 : Nat) (h1 : d1 < 64) (h2 : d2 < 64) (h3 : d3 < 64) :
    d0 <<< 18 ||| d1 <<< 12 ||| d2 <<< 6 ||| d3 = d0 * 262144 + d1 * 4096 + d2 * 64 + d3 := by
  simp only [Nat.shiftLeft_eq]
  rw [or_eq_add_of_dvd 18 (d0 * 2 ^ 18) (d1 * 2 ^ 12) (by omega) (by omega),
    or_eq_add_of_dvd 12 (d0 * 2 ^ 18 + d1 * 2 ^ 12) (d2 * 2 ^ 6) (by omega) (by omega),
    or_eq_add_of_dvd 6 (d0 * 2 ^ 18 + d1 * 2 ^ 12 + d2 * 2 ^ 6) d3 (by omega) (by omega)]

/-- Induction on a list three elements at a time, as `Encode` consumes its source. -/
theorem triple_induction {α : Type} (P : List α → Prop) (h0 : P []) (h1 : ∀ a, P [a])
    (h2 : ∀ a b, P [a, b]) (h3 : ∀ a b c rest, P rest → P (a :: b :: c :: rest)) :
    ∀ l, P l
  | [] => h0
  | [a] => h1 a
  | [a, b] => h2 a b
  | a :: b :: c :: rest => h3 a b c rest (triple_induction P h0 h1 h2 h3 rest)

/-- The loop of `Encode`, started at the end of `pre` in a buffer `pre ++ buf` with room for
the output, overwrites the start of `buf` with `encoded src` and nothing else. -/
theorem encodeLoop_append (enc : Encoding) (src : List Byte) :
    ∀ pre buf : List Byte, (enc.encoded src).length ≤ buf.length →
      enc.encodeLoop src pre.length (pre ++ buf)
        = pre ++ enc.encoded src ++ buf.drop (enc.encoded src).length := by
  induction src using triple_induction with
  | h0 => intro pre buf _; simp [Encoding.encodeLoop, Encoding.encoded]
  | h1 a =>
    intro pre buf h
    cases hp : enc.padChar with
    | none =>
      simp only [Encoding.encoded, hp, Option.toList, List.append_nil, List.length_cons,
        List.length_nil] at h ⊢
      match buf, h with
      | x0 :: x1 :: buf, _ => simp [Encoding.encodeLoop, hp, List.set_append]
    | some p =>
      simp only [Encoding.encoded, hp, Option.toList, List.length_cons, List.length_append,
        List.length_nil] at h ⊢
      match buf, h with
      | x0 :: x1 :: x2 :: x3 :: buf, _ => simp [Encoding.encodeLoop, hp, List.set_append]
  | h2 a b =>
    intro pre buf h
    cases hp : enc.padChar with
    | none =>
      simp only [Encoding.encoded, hp, Option.toList, List.append_nil, List.length_cons,
        List.length_nil] at h ⊢
      match buf, h with
      | x0 :: x1 :: x2 :: buf, _ => simp [Encoding.encodeLoop, hp, List.set_append]
    | some p =>
      simp only [Encoding.encoded, hp, Option.toList, List.length_cons, List.length_append,
        List.length_nil] at h ⊢
      match buf, h with
      | x0 :: x1 :: x2 :: x3 :: buf, _ => simp [Encoding.encodeLoop, hp, List.set_append]
  | h3 a b c rest ih =>
    intro pre buf h
    simp only [Encoding.encoded, List.length_cons] at h ⊢
    match buf, h with
    | x0 :: x1 :: x2 :: x3 :: buf, h =>
      have hl : (enc.encoded rest).length ≤ buf.length := by
        simp only [List.length_cons] at h; omega
      have := ih (pre ++ [enc.sym ((a.val <<< 16 ||| b.val <<< 8 ||| c.val) >>> 18),
        enc.sym ((a.val <<< 16 ||| b.val <<< 8 ||| c.val) >>> 12),
        enc.sym ((a.val <<< 16 ||| b.val <<< 8 ||| c.val) >>> 6),
        enc.sym (a.val <<< 16 ||| b.val <<< 8 ||| c.val)]) buf hl
      simp [Encoding.encodeLoop, List.set_append] at this ⊢
      exact this

/-- The output of the encoder has the length `EncodedLen` announces. -/
theorem encoded_length (enc : Encoding) (src : List Byte) :
    (enc.encoded src).length = enc.EncodedLen src.length := by
  induction src using triple_induction with
  | h0 => cases hp : enc.padChar <;> simp [Encoding.encoded, Encoding.EncodedLen, hp]
  | h1 a => cases hp : enc.padChar <;> simp [Encoding.encoded, Encoding.EncodedLen, hp]
  | h2 a b => cases hp : enc.padChar <;> simp [Encoding.encoded, Encoding.EncodedLen, hp]
  | h3 a b c rest ih =>
    simp only [Encoding.encoded, List.length_cons, ih]
    cases hp : enc.padChar <;> simp only [Encoding.EncodedLen, hp] <;> omega

/-- The call `Encode` on a fresh buffer of `EncodedLen(len(src))` bytes fills it with
`encoded src`: no byte of the buffer is left unwritten and no write falls outside. -/
theorem Encode_make (enc : Encoding) (src : List Byte) :
    enc.Encode (make (enc.EncodedLen src.length)) src = enc.encoded src := by
  have h := encodeLoop_append enc src [] (make (enc.EncodedLen src.length))
    (by simp [make, encoded_length])
  simp only [List.length_nil, List.nil_append] at h
  rw [Encoding.Encode, h, List.drop_of_length_le (by simp [make, encoded_length])]
  simp

set_option maxRecDepth 100000 in
/-- The tables of `StdEncoding`: entry `i` of `encode` is the character of value `i` in the
alphabet of RFC 4648, an ASCII byte, which `decodeMap` sends back to `i`. -/
theorem StdEncoding_table :
    ∀ i : Fin 64, Char.ofNat (StdEncoding.encode.getD i.val 0).val = rfc4648.alphabet i.val
      ∧ StdEncoding.decodeMap.getD (StdEncoding.encode.getD i.val 0).val 255 = Fin.ofNat i.val
      ∧ (StdEncoding.encode.getD i.val 0).val < 128 := by
  decide

/-- The symbol of `v` is the character of `v % 64` in the alphabet of RFC 4648. -/
theorem sym_char (v : Nat) :
    Char.ofNat (StdEncoding.sym v).val = rfc4648.alphabet (v % 64) := by
  have := (StdEncoding_table ⟨v % 64, Nat.mod_lt _ (by decide)⟩).1
  simpa [Encoding.sym, and_63] using this

/-- The table `decodeMap` sends the symbol of `v` to `v % 64`. -/
theorem sym_decode (v : Nat) :
    StdEncoding.decodeMap.getD (StdEncoding.sym v).val 255 = Fin.ofNat (v % 64) := by
  have := (StdEncoding_table ⟨v % 64, Nat.mod_lt _ (by decide)⟩).2.1
  simpa [Encoding.sym, and_63] using this

/-- A symbol is an ASCII byte. -/
theorem sym_lt (v : Nat) : (StdEncoding.sym v).val < 128 := by
  have := (StdEncoding_table ⟨v % 64, Nat.mod_lt _ (by decide)⟩).2.2
  simpa [Encoding.sym, and_63] using this

/-- The padding of `StdEncoding` is the byte of `=`. -/
theorem StdEncoding_padChar : StdEncoding.padChar = some 61 := rfl

/-- The bytes `Encode` writes with `StdEncoding` are the characters of the RFC 4648
encoding. -/
theorem encoded_chars (src : List Byte) :
    (StdEncoding.encoded src).map (fun x => Char.ofNat x.val) = rfc4648.encode src := by
  induction src using triple_induction with
  | h0 => rfl
  | h1 a =>
    have ha := a.isLt
    simp only [Encoding.encoded, StdEncoding_padChar, Option.toList, List.map_cons,
      List.map_nil, List.cons_append, List.nil_append, sym_char, rfc4648.encode,
      Nat.shiftLeft_eq, Nat.shiftRight_eq_div_pow]
    have e1 : a.val * 2 ^ 16 / 2 ^ 18 % 64 = a.val * 2 ^ 4 / 2 ^ 6 := by omega
    have e2 : a.val * 2 ^ 16 / 2 ^ 12 % 64 = a.val * 2 ^ 4 % 64 := by omega
    rw [e1, e2]
    rfl
  | h2 a b =>
    have ha := a.isLt
    have hb := b.isLt
    have hv : a.val <<< 16 ||| b.val <<< 8 = a.val * 65536 + b.val * 256 := by
      have := val3 a.val b.val 0 hb (by decide)
      simpa using this
    simp only [Encoding.encoded, StdEncoding_padChar, Option.toList, List.map_cons,
      List.map_nil, List.cons_append, List.nil_append, sym_char, rfc4648.encode, hv,
      Nat.shiftRight_eq_div_pow]
    have e1 : (a.val * 65536 + b.val * 256) / 2 ^ 18 % 64
        = (a.val * 2 ^ 8 + b.val) * 2 ^ 2 / 2 ^ 12 := by omega
    have e2 : (a.val * 65536 + b.val * 256) / 2 ^ 12 % 64
        = (a.val * 2 ^ 8 + b.val) * 2 ^ 2 / 2 ^ 6 % 64 := by omega
    have e3 : (a.val * 65536 + b.val * 256) / 2 ^ 6 % 64
        = (a.val * 2 ^ 8 + b.val) * 2 ^ 2 % 64 := by omega
    rw [e1, e2, e3]
    rfl
  | h3 a b c rest ih =>
    have ha := a.isLt
    have hb := b.isLt
    have hc := c.isLt
    simp only [Encoding.encoded, List.map_cons, sym_char, rfc4648.encode, ih,
      val3 a.val b.val c.val hb hc, Nat.shiftRight_eq_div_pow]
    have e1 : (a.val * 65536 + b.val * 256 + c.val) / 2 ^ 18 % 64
        = (a.val * 2 ^ 16 + b.val * 2 ^ 8 + c.val) / 2 ^ 18 := by omega
    have e2 : (a.val * 65536 + b.val * 256 + c.val) / 2 ^ 12 % 64
        = (a.val * 2 ^ 16 + b.val * 2 ^ 8 + c.val) / 2 ^ 12 % 64 := by omega
    have e3 : (a.val * 65536 + b.val * 256 + c.val) / 2 ^ 6 % 64
        = (a.val * 2 ^ 16 + b.val * 2 ^ 8 + c.val) / 2 ^ 6 % 64 := by omega
    have e4 : (a.val * 65536 + b.val * 256 + c.val) % 64
        = (a.val * 2 ^ 16 + b.val * 2 ^ 8 + c.val) % 64 := by omega
    rw [e1, e2, e3, e4]

/-- A 6-bit digit is not the marker `0xFF` of `decodeMap`. -/
theorem ofNat_mod64_ne (v : Nat) : (Fin.ofNat (v % 64) : Byte) ≠ 255 := by
  intro h
  have := congrArg Fin.val h
  simp [Fin.ofNat] at this
  omega

/-- The value of a 6-bit digit held in a byte. -/
theorem ofNat_mod64_val (v : Nat) : (Fin.ofNat (v % 64) : Byte).val = v % 64 := by
  simp [Fin.ofNat]
  omega

/-- The decoder on a quantum of four symbols. -/
theorem decodeLoop_four (v0 v1 v2 v3 : Nat) (rest : List Byte) :
    StdEncoding.decodeLoop
        (StdEncoding.sym v0 :: StdEncoding.sym v1 :: StdEncoding.sym v2 :: StdEncoding.sym v3
          :: rest) [] =
      (StdEncoding.decodeLoop rest []).map fun t =>
        quantumBytes (Fin.ofNat (v0 % 64)) (Fin.ofNat (v1 % 64)) (Fin.ofNat (v2 % 64))
          (Fin.ofNat (v3 % 64)) ++ t := by
  simp only [Encoding.decodeLoop, sym_decode, ofNat_mod64_ne, ne_eq, not_false_eq_true,
    if_true, List.nil_append, List.cons_append]

/-- The decoder on a final quantum of three symbols and one padding byte. -/
theorem decodeLoop_three_pad (v0 v1 v2 : Nat) :
    StdEncoding.decodeLoop
        [StdEncoding.sym v0, StdEncoding.sym v1, StdEncoding.sym v2, 61] [] =
      some ((quantumBytes (Fin.ofNat (v0 % 64)) (Fin.ofNat (v1 % 64)) (Fin.ofNat (v2 % 64))
        0).take 2) := by
  have h61 : StdEncoding.decodeMap.getD (61 : Byte).val 255 = 255 := by decide
  have h10 : ¬((61 : Byte) = 10 ∨ (61 : Byte) = 13) := by decide
  simp only [Encoding.decodeLoop, sym_decode, ofNat_mod64_ne, h61, h10, StdEncoding_padChar,
    skipNewlines, ne_eq, not_false_eq_true, not_true_eq_false, if_true, if_false,
    List.nil_append, List.cons_append]

/-- The decoder on a final quantum of two symbols and two padding bytes. -/
theorem decodeLoop_two_pad (v0 v1 : Nat) :
    StdEncoding.decodeLoop [StdEncoding.sym v0, StdEncoding.sym v1, 61, 61] [] =
      some ((quantumBytes (Fin.ofNat (v0 % 64)) (Fin.ofNat (v1 % 64)) 0 0).take 1) := by
  have h61 : StdEncoding.decodeMap.getD (61 : Byte).val 255 = 255 := by decide
  have h10 : ¬((61 : Byte) = 10 ∨ (61 : Byte) = 13) := by decide
  simp only [Encoding.decodeLoop, sym_decode, ofNat_mod64_ne, h61, h10, StdEncoding_padChar,
    skipNewlines, ne_eq, not_false_eq_true, not_true_eq_false, if_true, if_false,
    List.nil_append, List.cons_append]

/-- The four digits of three bytes decode to these three bytes. -/
theorem quantumBytes_three (a b c : Byte) :
    quantumBytes (Fin.ofNat ((a.val <<< 16 ||| b.val <<< 8 ||| c.val) >>> 18 % 64))
      (Fin.ofNat ((a.val <<< 16 ||| b.val <<< 8 ||| c.val) >>> 12 % 64))
      (Fin.ofNat ((a.val <<< 16 ||| b.val <<< 8 ||| c.val) >>> 6 % 64))
      (Fin.ofNat ((a.val <<< 16 ||| b.val <<< 8 ||| c.val) % 64)) = [a, b, c] := by
  have ha := a.isLt
  have hb := b.isLt
  have hc := c.isLt
  simp only [quantumBytes, ofNat_mod64_val, val3 a.val b.val c.val hb hc]
  rw [val4 _ _ _ _ (Nat.mod_lt _ (by decide)) (Nat.mod_lt _ (by decide))
    (Nat.mod_lt _ (by decide))]
  simp only [Nat.shiftRight_eq_div_pow, List.cons.injEq, and_true]
  refine ⟨Fin.ext ?_, Fin.ext ?_, Fin.ext ?_⟩ <;> simp only [Fin.ofNat] <;> omega

/-- The three digits of a final group of two bytes decode to these two bytes. -/
theorem quantumBytes_two (a b : Byte) :
    (quantumBytes (Fin.ofNat ((a.val <<< 16 ||| b.val <<< 8) >>> 18 % 64))
      (Fin.ofNat ((a.val <<< 16 ||| b.val <<< 8) >>> 12 % 64))
      (Fin.ofNat ((a.val <<< 16 ||| b.val <<< 8) >>> 6 % 64)) 0).take 2 = [a, b] := by
  have ha := a.isLt
  have hb := b.isLt
  have hv : a.val <<< 16 ||| b.val <<< 8 = a.val * 65536 + b.val * 256 := by
    have := val3 a.val b.val 0 hb (by decide)
    simpa using this
  simp only [quantumBytes, ofNat_mod64_val, hv]
  rw [val4 _ _ _ _ (Nat.mod_lt _ (by decide)) (Nat.mod_lt _ (by decide)) (by decide)]
  simp only [Nat.shiftRight_eq_div_pow, List.take, List.cons.injEq, and_true]
  refine ⟨Fin.ext ?_, Fin.ext ?_⟩ <;> simp only [Fin.ofNat, Fin.val_zero] <;> omega

/-- The two digits of a final group of one byte decode to this byte. -/
theorem quantumBytes_one (a : Byte) :
    (quantumBytes (Fin.ofNat ((a.val <<< 16) >>> 18 % 64))
      (Fin.ofNat ((a.val <<< 16) >>> 12 % 64)) 0 0).take 1 = [a] := by
  have ha := a.isLt
  simp only [quantumBytes, ofNat_mod64_val]
  rw [val4 _ _ _ _ (Nat.mod_lt _ (by decide)) (by decide) (by decide)]
  simp only [Nat.shiftRight_eq_div_pow, Nat.shiftLeft_eq, List.take, List.cons.injEq, and_true]
  refine Fin.ext ?_
  simp only [Fin.ofNat, Fin.val_zero]
  omega

/-- Decoding what `Encode` writes gives the source back. -/
theorem decodeLoop_encoded (src : List Byte) :
    StdEncoding.decodeLoop (StdEncoding.encoded src) [] = some src := by
  induction src using triple_induction with
  | h0 => rfl
  | h1 a =>
    simp only [Encoding.encoded, StdEncoding_padChar, Option.toList, List.cons_append,
      List.nil_append, decodeLoop_two_pad, quantumBytes_one]
  | h2 a b =>
    simp only [Encoding.encoded, StdEncoding_padChar, Option.toList, List.cons_append,
      List.nil_append, decodeLoop_three_pad, quantumBytes_two]
  | h3 a b c rest ih =>
    simp only [Encoding.encoded, decodeLoop_four, ih, quantumBytes_three, Option.map_some']
    rfl

/-- The encoder writes ASCII bytes only. -/
theorem encoded_ascii (src : List Byte) : ∀ x ∈ StdEncoding.encoded src, x.val < 128 := by
  induction src using triple_induction with
  | h0 => simp [Encoding.encoded]
  | h1 a =>
    simp only [Encoding.encoded, StdEncoding_padChar, Option.toList, List.cons_append,
      List.nil_append, List.mem_cons, List.mem_nil_iff, or_false]
    rintro x (rfl | rfl | rfl | rfl)
    · exact sym_lt _
    · exact sym_lt _
    · decide
    · decide
  | h2 a b =>
    simp only [Encoding.encoded, StdEncoding_padChar, Option.toList, List.cons_append,
      List.nil_append, List.mem_cons, List.mem_nil_iff, or_false]
    rintro x (rfl | rfl | rfl | rfl)
    · exact sym_lt _
    · exact sym_lt _
    · exact sym_lt _
    · decide
  | h3 a b c rest ih =>
    simp only [Encoding.encoded, List.mem_cons]
    rintro x (rfl | rfl | rfl | rfl | h)
    · exact sym_lt _
    · exact sym_lt _
    · exact sym_lt _
    · exact sym_lt _
    · exact ih x h

set_option maxRecDepth 100000 in
/-- The UTF-8 encoding of an ASCII character is its single byte. -/
theorem utf8_ascii : ∀ x : Fin 128,
    (String.utf8EncodeChar (Char.ofNat x.val)).map (fun u => u.val)
      = [(Fin.ofNat x.val : Byte)] := by
  decide

/-- On ASCII bytes the conversion `[]byte(string(l))` gives `l` back. -/
theorem bytes_string (l : List Byte) (h : ∀ x ∈ l, x.val < 128) : bytes (string l) = l := by
  induction l with
  | nil => rfl
  | cons a l ih =>
    have ha : a.val < 128 := h a (List.mem_cons_self _ _)
    have h1 := utf8_ascii ⟨a.val, ha⟩
    have h2 : (Fin.ofNat a.val : Byte) = a := Fin.ext (by simp [Fin.ofNat])
    have ih2 := ih fun x hx => h x (List.mem_cons_of_mem _ hx)
    simp only [bytes, string, List.map_cons, List.flatMap_cons] at ih2 ⊢
    rw [h1, h2, ih2]
    rfl

/-- The checksum `Sum256` is 32 bytes long (the Go type `[32]byte`). -/
theorem Sum256_length (data : List Byte) : (sha256.Sum256 data).length = 32 := by
  simp [sha256.Sum256, sha256.putUint32]

set_option maxRecDepth 100000 in
/-- The model of `Sum256` on the test vectors of FIPS 180: the empty message and `abc`. -/
theorem Sum256_test_vectors :
    sha256.Sum256 [] =
      [0xe3, 0xb0, 0xc4, 0x42, 0x98, 0xfc, 0x1c, 0x14, 0x9a, 0xfb, 0xf4, 0xc8, 0x99, 0x6f,
       0xb9, 0x24, 0x27, 0xae, 0x41, 0xe4, 0x64, 0x9b, 0x93, 0x4c, 0xa4, 0x95, 0x99, 0x1b,
       0x78, 0x52, 0xb8, 0x55]
    ∧ sha256.Sum256 (bytes "abc") =
      [0xba, 0x78, 0x16, 0xbf, 0x8f, 0x01, 0xcf, 0xea, 0x41, 0x41, 0x40, 0xde, 0x5d, 0xae,
       0x22, 0x23, 0xb0, 0x03, 0x61, 0xa3, 0x96, 0x17, 0x7a, 0x9c, 0xb4, 0x10, 0xff, 0x61,
       0xf2, 0x00, 0x15, 0xad] := by
  decide

/-- On a key of 32 bytes the result of `newBlobEncryptionHeader`, in terms of the bytes
that `Encode` writes. -/
theorem newBlobEncryptionHeader_encoded (key : List Byte) (h : key.length = 32) :
    newBlobEncryptionHeader (some key) =
      (some { key := string (StdEncoding.encoded key),
              keySha2 := string (StdEncoding.encoded (sha256.Sum256 key)) }, none) := by
  simp only [newBlobEncryptionHeader, h, ne_eq, not_true_eq_false, if_false]
  rw [← h, Encode_make, Encode_make]

/-- The string of the bytes `Encode` writes is the RFC 4648 encoding. -/
theorem string_encoded (src : List Byte) :
    string (StdEncoding.encoded src) = String.mk (rfc4648.encode src) := by
  rw [string, encoded_chars]

/-- The method `DecodeString` on the string of the bytes `Encode` writes gives the source. -/
theorem DecodeString_encoded (src : List Byte) :
    StdEncoding.DecodeString (string (StdEncoding.encoded src)) = some src := by
  rw [Encoding.DecodeString, bytes_string _ (encoded_ascii src), decodeLoop_encoded]

/-- Every character of the alphabet table is one of `A-Z`, `a-z`, `0-9`, `+`, `/`. -/
theorem isAlphabet_alphabet (v : Nat) : rfc4648.isAlphabet (rfc4648.alphabet v) = true := by
  by_cases h : v < 64
  · have := (by decide : ∀ i : Fin 64, rfc4648.isAlphabet (rfc4648.alphabet i.val) = true)
    exact this ⟨v, h⟩
  · have h1 : ¬ v < 26 := by omega
    have h2 : ¬ v < 52 := by omega
    have h3 : ¬ v < 62 := by omega
    have h4 : ¬ v = 62 := by omega
    simp only [rfc4648.alphabet, h1, h2, h3, h4, if_false]
    decide

/-- The RFC 4648 encoding of a source whose length is 2 modulo 3 is a run of alphabet
characters followed by a single `=`. -/
theorem encode_shape (src : List Byte) :
    src.length % 3 = 2 →
      ∃ body, rfc4648.encode src = body ++ ['='] ∧ ∀ c ∈ body, rfc4648.isAlphabet c = true := by
  induction src using triple_induction with
  | h0 => intro h; simp at h
  | h1 a => intro h; simp at h
  | h2 a b =>
    intro _
    refine ⟨(rfc4648.encode [a, b]).take 3, rfl, ?_⟩
    intro c hc
    simp only [rfc4648.encode, List.take, List.mem_cons, List.mem_nil_iff, or_false] at hc
    rcases hc with rfl | rfl | rfl <;> exact isAlphabet_alphabet _
  | h3 a b c rest ih =>
    intro h
    obtain ⟨body, hb, hall⟩ := ih (by simp only [List.length_cons] at h; omega)
    refine ⟨(rfc4648.encode (a :: b :: c :: rest)).take 4 ++ body, ?_, ?_⟩
    · simp only [rfc4648.encode, hb, List.take, List.cons_append, List.nil_append]
    intro x hx
    simp only [rfc4648.encode, List.take, List.cons_append, List.nil_append,
      List.mem_cons] at hx
    rcases hx with rfl | rfl | rfl | rfl | hx
    · exact isAlphabet_alphabet _
    · exact isAlphabet_alphabet _
    · exact isAlphabet_alphabet _
    · exact isAlphabet_alphabet _
    · exact hall x hx

/-- The length of the RFC 4648 encoding is the one `EncodedLen` announces. -/
theorem encode_length (src : List Byte) :
    (rfc4648.encode src).length = StdEncoding.EncodedLen src.length := by
  rw [← encoded_chars, List.length_map, encoded_length]

/-- The string `Encode` makes of 32 bytes is well formed: 44 characters, of which the
first 43 are in the standard alphabet and the last is the pad. -/
theorem wellFormed44_encoded (src : List Byte) (h : src.length = 32) :
    rfc4648.WellFormed44 (string (StdEncoding.encoded src)) := by
  have hlen : (rfc4648.encode src).length = 44 := by rw [encode_length, h]; rfl
  obtain ⟨body, hb, hall⟩ := encode_shape src (by rw [h])
  have hbl : body.length = 43 := by
    have := hlen
    rw [hb, List.length_append] at this
    simpa using this
  rw [string_encoded]
  refine ⟨by simpa [String.length] using hlen, ?_, ?_⟩
  · show ∀ c ∈ (rfc4648.encode src).take 43, rfc4648.isAlphabet c = true
    rw [hb, ← hbl, List.take_left]
    exact hall
  · show (rfc4648.encode src).drop 43 = ['=']
    rw [hb, ← hbl, List.drop_left]

/-- The canonical form of the name of the key header. -/
theorem canonical_key :
    http.CanonicalMIMEHeaderKey "x-ms-encryption-key" = "X-Ms-Encryption-Key" := by decide

/-- The canonical form of the name of the key checksum header. -/
theorem canonical_keySha2 :
    http.CanonicalMIMEHeaderKey "x-ms-encryption-key-sha256" = "X-Ms-Encryption-Key-Sha256" := by
  decide

/-- The canonical form of the name of the algorithm header. -/
theorem canonical_algorithm :
    http.CanonicalMIMEHeaderKey "x-ms-encryption-algorithm" = "X-Ms-Encryption-Algorithm" := by
  decide

/-- The error of `newBlobEncryptionHeader` on keys of 0, 16, 31, 33 and 64 bytes: the
length is rendered in base 10. -/
theorem newBlobEncryptionHeader_error_examples :
    newBlobEncryptionHeader (some (make 0))
        = (none, some ⟨"Invalid key length, must be 32 bytes: 0"⟩)
    ∧ newBlobEncryptionHeader (some (make 16))
        = (none, some ⟨"Invalid key length, must be 32 bytes: 16"⟩)
    ∧ newBlobEncryptionHeader (some (make 31))
        = (none, some ⟨"Invalid key length, must be 32 bytes: 31"⟩)
    ∧ newBlobEncryptionHeader (some (make 33))
        = (none, some ⟨"Invalid key length, must be 32 bytes: 33"⟩)
    ∧ newBlobEncryptionHeader (some (make 64))
        = (none, some ⟨"Invalid key length, must be 32 bytes: 64"⟩) := by
  decide

/-! ## The claims of the specification -/

/-- C1: `newBlobEncryptionHeader` returns an error if and only if the key is non-nil and
its length is not 32; in that case the returned header set is nil and the error message is
`Invalid key length, must be 32 bytes: ` followed by the decimal rendering of the length
of the key. -/
theorem newBlobEncryptionHeader_error_iff (key : Option (List Byte)) :
    ((newBlobEncryptionHeader key).2 ≠ none ↔ ∃ k, key = some k ∧ k.length ≠ 32) ∧
    ∀ k : List Byte, k.length ≠ 32 →
      newBlobEncryptionHeader (some k) =
        (none, some ⟨"Invalid key length, must be 32 bytes: " ++ Nat.repr k.length⟩) := by
  constructor
  · cases key with
    | none => simp [newBlobEncryptionHeader]
    | some k =>
      by_cases h : k.length = 32 <;> simp [newBlobEncryptionHeader, h]
  · intro k h
    simp only [newBlobEncryptionHeader, h, ne_eq, not_false_eq_true, if_true]
    rfl

/-- A key of 16 bytes: the error reports the length 16. -/
theorem newBlobEncryptionHeader_error_iff_witness :
    (make 16).length ≠ 32 ∧
      newBlobEncryptionHeader (some (make 16)) =
        (none, some ⟨"Invalid key length, must be 32 bytes: 16"⟩) :=
  ⟨by decide, (newBlobEncryptionHeader_error_iff (some (make 16))).2 (make 16) (by decide)⟩

/-- C2: for every key of exactly 32 bytes, `newBlobEncryptionHeader` returns no error and
a header set whose `key` is the standard base64 encoding (RFC 4648, section 4, with
padding) of the key and whose `keySha2` is the standard base64 encoding of the SHA-256
checksum of the key. -/
theorem newBlobEncryptionHeader_valid (key : List Byte) (h : key.length = 32) :
    newBlobEncryptionHeader (some key) =
      (some { key := String.mk (rfc4648.encode key),
              keySha2 := String.mk (rfc4648.encode (sha256.Sum256 key)) }, none) := by
  rw [newBlobEncryptionHeader_encoded key h, string_encoded, string_encoded]

/-- The key of 32 zero bytes. -/
theorem newBlobEncryptionHeader_valid_witness :
    (make 32).length = 32 ∧
      newBlobEncryptionHeader (some (make 32)) =
        (some { key := String.mk (rfc4648.encode (make 32)),
                keySha2 := String.mk (rfc4648.encode (sha256.Sum256 (make 32))) }, none) :=
  ⟨by decide, newBlobEncryptionHeader_valid (make 32) (by decide)⟩

/-- C3: for every key of 32 bytes, `newBlobEncryptionHeader` succeeds and decoding the
`key` field of the result as standard base64 gives exactly the 32 bytes of the key. -/
theorem newBlobEncryptionHeader_key_roundtrip (key : List Byte) (h : key.length = 32) :
    ∃ hdr, newBlobEncryptionHeader (some key) = (some hdr, none) ∧
      StdEncoding.DecodeString hdr.key = some key :=
  ⟨_, newBlobEncryptionHeader_encoded key h, DecodeString_encoded key⟩

/-- The key of 32 zero bytes. -/
theorem newBlobEncryptionHeader_key_roundtrip_witness :
    (make 32).length = 32 ∧
      ∃ hdr, newBlobEncryptionHeader (some (make 32)) = (some hdr, none) ∧
        StdEncoding.DecodeString hdr.key = some (make 32) :=
  ⟨by decide, newBlobEncryptionHeader_key_roundtrip (make 32) (by decide)⟩

/-- C4: for every key of 32 bytes, decoding the `keySha2` field of the result as standard
base64 gives exactly the SHA-256 checksum of the key, which is 32 bytes long. -/
theorem newBlobEncryptionHeader_keySha2_roundtrip (key : List Byte) (h : key.length = 32) :
    ∃ hdr, newBlobEncryptionHeader (some key) = (some hdr, none) ∧
      StdEncoding.DecodeString hdr.keySha2 = some (sha256.Sum256 key) ∧
      (sha256.Sum256 key).length = 32 :=
  ⟨_, newBlobEncryptionHeader_encoded key h, DecodeString_encoded _, Sum256_length key⟩

/-- The key of 32 zero bytes. -/
theorem newBlobEncryptionHeader_keySha2_roundtrip_witness :
    (make 32).length = 32 ∧
      ∃ hdr, newBlobEncryptionHeader (some (make 32)) = (some hdr, none) ∧
        StdEncoding.DecodeString hdr.keySha2 = some (sha256.Sum256 (make 32)) ∧
        (sha256.Sum256 (make 32)).length = 32 :=
  ⟨by decide, newBlobEncryptionHeader_keySha2_roundtrip (make 32) (by decide)⟩

/-- C5: for a nil key, `newBlobEncryptionHeader` returns a nil header set and a nil
error. -/
theorem newBlobEncryptionHeader_nil : newBlobEncryptionHeader none = (none, none) := rfl

/-- C6: for every request, `setEncryptionHeaders` with a nil header set returns the
request as it is, so every entry of its header map is what it was (none added, none
changed); in particular so does applying the header set of `newBlobEncryptionHeader(nil)`. -/
theorem setEncryptionHeaders_nil {ρ : Type} (req : Request ρ) :
    setEncryptionHeaders req none = req
    ∧ (∀ name, (setEncryptionHeaders req none).Header name = req.Header name)
    ∧ setEncryptionHeaders req (newBlobEncryptionHeader none).1 = req :=
  ⟨rfl, fun _ => rfl, rfl⟩

/-- C7: for every request and every non-nil header set `enc`, after `setEncryptionHeaders`
the field `x-ms-encryption-key` has the single value `enc.key`,
`x-ms-encryption-key-sha256` the single value `enc.keySha2` and
`x-ms-encryption-algorithm` the single value `AES256`, whatever the request held before.
The values of a field are read as `Header.Values` reads them, by canonical name. -/
theorem setEncryptionHeaders_values {ρ : Type} (req : Request ρ) (enc : blobEncryptionHeaders) :
    http.Header.Values (setEncryptionHeaders req (some enc)).Header "x-ms-encryption-key"
      = [enc.key]
    ∧ http.Header.Values (setEncryptionHeaders req (some enc)).Header
        "x-ms-encryption-key-sha256" = [enc.keySha2]
    ∧ http.Header.Values (setEncryptionHeaders req (some enc)).Header
        "x-ms-encryption-algorithm" = ["AES256"] := by
  simp only [setEncryptionHeaders, http.Header.Values, http.Header.Set, canonical_key,
    canonical_keySha2, canonical_algorithm, encryptionAlgorithm]
  simp

/-- C8: `setEncryptionHeaders` is idempotent: applying a header set `enc` twice gives the
request, and so the header map, that applying it once gives. -/
theorem setEncryptionHeaders_idempotent {ρ : Type} (req : Request ρ)
    (enc : blobEncryptionHeaders) :
    setEncryptionHeaders (setEncryptionHeaders req (some enc)) (some enc)
      = setEncryptionHeaders req (some enc) := by
  simp only [setEncryptionHeaders]
  congr 1
  funext name
  simp only [http.Header.Set]
  split_ifs <;> rfl

/-- C9: a non-nil key of length 0 is not treated as a nil key: `newBlobEncryptionHeader`
fails with the invalid key length error reporting the length 0, whereas the nil key gives
no error. -/
theorem newBlobEncryptionHeader_empty :
    newBlobEncryptionHeader (some []) =
      (none, some ⟨"Invalid key length, must be 32 bytes: 0"⟩)
    ∧ newBlobEncryptionHeader (some []) ≠ newBlobEncryptionHeader none := by
  decide

/-- C10: for every key on which `newBlobEncryptionHeader` returns an error, the header set
it returns is nil, and `setEncryptionHeaders` with that header set leaves the request, and
so each of the three encryption headers, as it was. -/
theorem newBlobEncryptionHeader_error_no_headers {ρ : Type} (key : Option (List Byte))
    (h : (newBlobEncryptionHeader key).2 ≠ none) (req : Request ρ) :
    (newBlobEncryptionHeader key).1 = none
    ∧ setEncryptionHeaders req (newBlobEncryptionHeader key).1 = req
    ∧ ∀ name, (setEncryptionHeaders req (newBlobEncryptionHeader key).1).Header name
        = req.Header name := by
  have h1 : (newBlobEncryptionHeader key).1 = none := by
    cases key with
    | none => rfl
    | some k =>
      by_cases hk : k.length = 32
      · simp [newBlobEncryptionHeader, hk] at h
      · simp [newBlobEncryptionHeader, hk]
  rw [h1]
  exact ⟨rfl, rfl, fun _ => rfl⟩

/-- A key of 16 bytes and a request with no header. -/
theorem newBlobEncryptionHeader_error_no_headers_witness :
    (newBlobEncryptionHeader (some (make 16))).2 ≠ none
    ∧ (newBlobEncryptionHeader (some (make 16))).1 = none
    ∧ setEncryptionHeaders (⟨fun _ => none, ()⟩ : Request Unit)
        (newBlobEncryptionHeader (some (make 16))).1 = ⟨fun _ => none, ()⟩ :=
  ⟨by decide,
    (newBlobEncryptionHeader_error_no_headers (some (make 16)) (by decide) ⟨fun _ => none, ()⟩).1,
    (newBlobEncryptionHeader_error_no_headers (some (make 16)) (by decide)
      ⟨fun _ => none, ()⟩).2.1⟩

/-- C11: every header set that `newBlobEncryptionHeader` produces has a `key` and a
`keySha2` that are well-formed standard base64 strings of exactly 44 characters (43
characters of the alphabet `A-Z a-z 0-9 + /`, then one `=`), and each decodes to exactly
32 bytes. -/
theorem newBlobEncryptionHeader_invariant (key : Option (List Byte))
    (hdr : blobEncryptionHeaders) (h : (newBlobEncryptionHeader key).1 = some hdr) :
    rfc4648.WellFormed44 hdr.key
    ∧ (∃ b, StdEncoding.DecodeString hdr.key = some b ∧ b.length = 32)
    ∧ rfc4648.WellFormed44 hdr.keySha2
    ∧ (∃ b, StdEncoding.DecodeString hdr.keySha2 = some b ∧ b.length = 32) := by
  cases key with
  | none => simp [newBlobEncryptionHeader] at h
  | some k =>
    by_cases hk : k.length = 32
    · rw [newBlobEncryptionHeader_encoded k hk] at h
      simp only [Option.some.injEq] at h
      subst h
      exact ⟨wellFormed44_encoded k hk, ⟨k, DecodeString_encoded k, hk⟩,
        wellFormed44_encoded _ (Sum256_length k),
        ⟨_, DecodeString_encoded _, Sum256_length k⟩⟩
    · simp [newBlobEncryptionHeader, hk] at h

set_option maxRecDepth 100000 in
/-- The header set of the key of 32 zero bytes. -/
theorem newBlobEncryptionHeader_invariant_witness :
    (newBlobEncryptionHeader (some (make 32))).1 =
        some ⟨"AAAAAAAAAAAAAAAAAAAAAAAAAAAAAAAAAAAAAAAAAAA=",
          "Zmh6rfhivXdsj8GLjp+OIAiXFIVu4jOzkCpZHQ1fKSU="⟩
    ∧ rfc4648.WellFormed44 "AAAAAAAAAAAAAAAAAAAAAAAAAAAAAAAAAAAAAAAAAAA="
    ∧ rfc4648.WellFormed44 "Zmh6rfhivXdsj8GLjp+OIAiXFIVu4jOzkCpZHQ1fKSU=" :=
  have h : (newBlobEncryptionHeader (some (make 32))).1 =
      some ⟨"AAAAAAAAAAAAAAAAAAAAAAAAAAAAAAAAAAAAAAAAAAA=",
        "Zmh6rfhivXdsj8GLjp+OIAiXFIVu4jOzkCpZHQ1fKSU="⟩ := by decide
  ⟨h, (newBlobEncryptionHeader_invariant (some (make 32)) _ h).1,
    (newBlobEncryptionHeader_invariant (some (make 32)) _ h).2.2.1⟩

set_option maxRecDepth 100000 in
/-- C13: scenario A. For the key of 32 zero bytes `newBlobEncryptionHeader` succeeds; the
`key` of the header set is the base64 of 32 zero bytes, 43 characters `A` and one `=`; the
`keySha2` is the base64 of the SHA-256 checksum of 32 zero bytes; and on any request
`setEncryptionHeaders` with this header set gives `x-ms-encryption-key` and
`x-ms-encryption-key-sha256` these two strings and `x-ms-encryption-algorithm` the string
`AES256`. -/
theorem scenario_zero_key {ρ : Type} (req : Request ρ) :
    ∃ hdr, newBlobEncryptionHeader (some (make 32)) = (some hdr, none)
      ∧ hdr.key = String.mk (rfc4648.encode (List.replicate 32 0))
      ∧ hdr.key = String.mk (List.replicate 43 'A' ++ ['='])
      ∧ hdr.keySha2 = String.mk (rfc4648.encode (sha256.Sum256 (List.replicate 32 0)))
      ∧ hdr.keySha2 = "Zmh6rfhivXdsj8GLjp+OIAiXFIVu4jOzkCpZHQ1fKSU="
      ∧ http.Header.Values (setEncryptionHeaders req (some hdr)).Header "x-ms-encryption-key"
          = [hdr.key]
      ∧ http.Header.Values (setEncryptionHeaders req (some hdr)).Header
          "x-ms-encryption-key-sha256" = [hdr.keySha2]
      ∧ http.Header.Values (setEncryptionHeaders req (some hdr)).Header
          "x-ms-encryption-algorithm" = ["AES256"] := by
  refine ⟨⟨"AAAAAAAAAAAAAAAAAAAAAAAAAAAAAAAAAAAAAAAAAAA=",
    "Zmh6rfhivXdsj8GLjp+OIAiXFIVu4jOzkCpZHQ1fKSU="⟩, by decide, by decide, by decide,
    by decide, rfl, ?_⟩
  simp only [setEncryptionHeaders, http.Header.Values, http.Header.Set, canonical_key,
    canonical_keySha2, canonical_algorithm, encryptionAlgorithm]
  simp

/-- C14: frame of `setEncryptionHeaders` with a non-nil header set. The fields of the
request other than its header map are untouched; every entry of the map other than the
three of the canonical names of `x-ms-encryption-key`, `x-ms-encryption-key-sha256` and
`x-ms-encryption-algorithm` is what it was (an absent entry stays absent, so no other field
is added); every field whose canonical name is not one of these three keeps its values;
and the map is the old one with these three entries replaced. -/
theorem setEncryptionHeaders_frame {ρ : Type} (req : Request ρ) (enc : blobEncryptionHeaders) :
    (setEncryptionHeaders req (some enc)).rest = req.rest
    ∧ (∀ k : String, k ≠ "X-Ms-Encryption-Key" → k ≠ "X-Ms-Encryption-Key-Sha256" →
        k ≠ "X-Ms-Encryption-Algorithm" →
        (setEncryptionHeaders req (some enc)).Header k = req.Header k)
    ∧ (∀ name : String,
        http.CanonicalMIMEHeaderKey name ≠ http.CanonicalMIMEHeaderKey "x-ms-encryption-key" →
        http.CanonicalMIMEHeaderKey name
          ≠ http.CanonicalMIMEHeaderKey "x-ms-encryption-key-sha256" →
        http.CanonicalMIMEHeaderKey name
          ≠ http.CanonicalMIMEHeaderKey "x-ms-encryption-algorithm" →
        http.Header.Values (setEncryptionHeaders req (some enc)).Header name
          = http.Header.Values req.Header name)
    ∧ (setEncryptionHeaders req (some enc)).Header =
        fun k =>
          if k = "X-Ms-Encryption-Algorithm" then some ["AES256"]
          else if k = "X-Ms-Encryption-Key-Sha256" then some [enc.keySha2]
          else if k = "X-Ms-Encryption-Key" then some [enc.key]
          else req.Header k := by
  refine ⟨rfl, ?_, ?_, ?_⟩
  · intro k h1 h2 h3
    simp only [setEncryptionHeaders, http.Header.Set, canonical_key, canonical_keySha2,
      canonical_algorithm, if_neg h1, if_neg h2, if_neg h3]
  · intro name h1 h2 h3
    simp only [setEncryptionHeaders, http.Header.Values, http.Header.Set, if_neg h1, if_neg h2,
      if_neg h3]
  · funext k
    simp only [setEncryptionHeaders, http.Header.Set, canonical_key, canonical_keySha2,
      canonical_algorithm, encryptionAlgorithm]

/-- A request that holds a content type, written in upper case, and a stale key: the
content type is read back as it was. -/
theorem setEncryptionHeaders_frame_witness :
    http.Header.Values
      (setEncryptionHeaders
        (⟨fun k => if k = "Content-Type" then some ["text/plain"]
            else if k = "X-Ms-Encryption-Key" then some ["stale", "staler"] else none, ()⟩ :
          Request Unit)
        (some ⟨"a2V5", "c2hh"⟩)).Header "CONTENT-TYPE" = ["text/plain"] :=
  ((setEncryptionHeaders_frame
      (⟨fun k => if k = "Content-Type" then some ["text/plain"]
          else if k = "X-Ms-Encryption-Key" then some ["stale", "staler"] else none, ()⟩ :
        Request Unit)
      ⟨"a2V5", "c2hh"⟩).2.2.1 "CONTENT-TYPE" (by decide) (by decide) (by decide)).trans
    (by decide)

/-- C15: the three outcomes of `newBlobEncryptionHeader`. The result is `(nil, nil)` if
and only if the key is nil; a non-nil header set with a nil error if and only if the key
is non-nil of length 32; a nil header set with a non-nil error if and only if the key is
non-nil of another length; and it is never a header set together with an error. -/
theorem newBlobEncryptionHeader_outcomes (key : Option (List Byte)) :
    (newBlobEncryptionHeader key = (none, none) ↔ key = none)
    ∧ (((newBlobEncryptionHeader key).1 ≠ none ∧ (newBlobEncryptionHeader key).2 = none)
        ↔ ∃ k, key = some k ∧ k.length = 32)
    ∧ (((newBlobEncryptionHeader key).1 = none ∧ (newBlobEncryptionHeader key).2 ≠ none)
        ↔ ∃ k, key = some k ∧ k.length ≠ 32)
    ∧ ¬ ((newBlobEncryptionHeader key).1 ≠ none ∧ (newBlobEncryptionHeader key).2 ≠ none) := by
  cases key with
  | none => simp [newBlobEncryptionHeader]
  | some k =>
    by_cases h : k.length = 32 <;> simp [newBlobEncryptionHeader, h]

/-- C16: `newBlobEncryptionHeader` is injective on valid keys: two distinct keys of 32
bytes give header sets with distinct `key` fields. -/
theorem newBlobEncryptionHeader_injective (k1 k2 : List Byte) (h1 : k1.length = 32)
    (h2 : k2.length = 32) (hne : k1 ≠ k2) :
    ∃ a b, newBlobEncryptionHeader (some k1) = (some a, none)
      ∧ newBlobEncryptionHeader (some k2) = (some b, none) ∧ a.key ≠ b.key := by
  refine ⟨_, _, newBlobEncryptionHeader_encoded k1 h1, newBlobEncryptionHeader_encoded k2 h2,
    ?_⟩
  intro heq
  have e1 := DecodeString_encoded k1
  have e2 := DecodeString_encoded k2
  simp only at heq
  rw [heq, e2] at e1
  exact hne (Option.some.inj e1).symm

/-- The key of 32 zero bytes and the key that differs from it in its first byte. -/
theorem newBlobEncryptionHeader_injective_witness :
    (make 32).length = 32 ∧ ((1 : Byte) :: make 31).length = 32 ∧ make 32 ≠ (1 : Byte) :: make 31
    ∧ ∃ a b, newBlobEncryptionHeader (some (make 32)) = (some a, none)
      ∧ newBlobEncryptionHeader (some ((1 : Byte) :: make 31)) = (some b, none)
      ∧ a.key ≠ b.key :=
  ⟨by decide, by decide, by decide,
    newBlobEncryptionHeader_injective (make 32) ((1 : Byte) :: make 31) (by decide) (by decide)
      (by decide)⟩

end azblob
